import Mathlib

/-!
Verification of the cluster-metadata / request-routing core of
`kafkatwisted/client.py` (class `KafkaClient`).

Shallow embedding notes:

* Python dictionaries are embedded as association lists (`List (k × v)`)
  with `alFind` (lookup of the first matching key), `alInsert`
  (replace-in-place or append, matching Python dict assignment and its
  insertion-order semantics) and `alErase` (key removal).
* The external `Connection` collaborator (`conn.send`, `conn.recv`,
  `conn.makeRequest`) is embedded as oracle functions passed in as
  parameters: a send either succeeds or raises `ConnectionError`
  (`sendOk : BrokerMetadata → Bool`), a receive either delivers bytes that
  the family decoder turns into a list of response records or raises
  (`recvRes : BrokerMetadata → Option (List Response)`).  Encoding
  (`encoder_fn`) and correlation ids do not influence any observable
  modelled here and are elided, as the spec places the codec outside the
  core.
* `load_metadata_for_topics` in the source builds a metadata request,
  fires it through `_send_broker_unaware_request` (a Twisted Deferred) and
  attaches `handleMetadataResponse` as a callback; it returns immediately
  without waiting for the Deferred.  Consequently a caller such as
  `_get_leader_for_partition` re-checks `self.topics_to_brokers` against
  the *unchanged* cache: the installation performed by
  `handleMetadataResponse` only happens when the reactor later fires the
  callback.  The embedding therefore models the synchronous part of a
  lookup as a pure function of the current cache that additionally
  reports how many metadata reloads it *initiated*, and models
  `handleMetadataResponse` (the callback body of the Deferred) as a separate
  cache-transforming function.
* Python 2 dictionary iteration order is unspecified, so the order in
  which `payloads_by_broker.items()` yields the broker groups is taken as
  a parameter `gs`, constrained in the theorems to be a permutation of
  the insertion-order grouping `groupByBroker`.
-/

/-- `kafkatwisted.common.TopicAndPartition` — the cache key. -/
structure TopicAndPartition where
  topic : String
  partition : Int
deriving DecidableEq, Repr

/-- `BrokerMetadata` — a broker descriptor `(nodeId, host, port)`. -/
structure BrokerMetadata where
  nodeId : Int
  host : String
  port : Int
deriving DecidableEq, Repr

/-- `PartitionMetadata` as consumed by `load_metadata_for_topics`: only the
`leader` field (a broker id, `-1` meaning no leader) is read by the client. -/
structure PartitionMetadata where
  leader : Int
deriving DecidableEq, Repr

/-- A request payload: an object-like record exposing `topic` and
`partition`; `body` stands for the family-specific content the router never
inspects. -/
structure Payload where
  topic : String
  partition : Int
  body : Int
deriving DecidableEq, Repr

/-- A decoded response record: exposes `topic`, `partition` and an integer
wire `error` code; `body` stands for the family-specific content. -/
structure Response where
  topic : String
  partition : Int
  error : Int
  body : Int
deriving DecidableEq, Repr

def keyOfPayload (p : Payload) : TopicAndPartition :=
  ⟨p.topic, p.partition⟩

def keyOfResponse (r : Response) : TopicAndPartition :=
  ⟨r.topic, r.partition⟩

/-- The exceptions of `kafkatwisted.common` that `client.py` raises or
catches. `keyError` stands for the Python `KeyError` that `acc[k]` raises
for a key missing from the accumulator. -/
inductive KafkaError where
  | partitionUnavailable (key : TopicAndPartition)
  | leaderUnavailable (topic : String) (partition : Int)
  | failedPayloads (payloads : List Payload)
  | kafkaUnavailable
  | keyError (key : TopicAndPartition)
  | unknownTopicOrPartition
  | notLeaderForPartition
  | protocolError (code : Int)
deriving DecidableEq, Repr

/-! ### Association lists (Python dict embedding) -/

def alFind {α β : Type} [DecidableEq α] : List (α × β) → α → Option β
  | [], _ => none
  | (k, v) :: t, a => if k = a then some v else alFind t a

def alInsert {α β : Type} [DecidableEq α] : List (α × β) → α → β → List (α × β)
  | [], a, b => [(a, b)]
  | (k, v) :: t, a, b => if k = a then (a, b) :: t else (k, v) :: alInsert t a b

def alErase {α β : Type} [DecidableEq α] : List (α × β) → α → List (α × β)
  | [], _ => []
  | (k, v) :: t, a => if k = a then alErase t a else (k, v) :: alErase t a

/-! ### The metadata cache

The three dictionaries the client keeps (`self.brokers`,
`self.topics_to_brokers`, `self.topic_partitions`).  A `topics_to_brokers`
value of `none` is the stored Python `None`: the no-leader marker. -/

structure Cache where
  brokers : List (Int × BrokerMetadata)
  topics_to_brokers : List (TopicAndPartition × Option BrokerMetadata)
  topic_partitions : List (String × List Int)
deriving DecidableEq, Repr

/-- `KafkaClient.reset_topic_metadata` for a single topic (the source
iterates this body over `*topics`): if the topic has no partition list the
`KeyError` is swallowed (`continue`); otherwise every
`TopicAndPartition(topic, partition)` is popped from `topics_to_brokers`
and the topic is deleted from `topic_partitions`. -/
def reset_topic_metadata (c : Cache) (topic : String) : Cache :=
  match alFind c.topic_partitions topic with
  | none => c
  | some partitions =>
    { c with
      topics_to_brokers :=
        partitions.foldl (fun m p => alErase m ⟨topic, p⟩) c.topics_to_brokers
      topic_partitions := alErase c.topic_partitions topic }

/-- `KafkaClient.reset_all_metadata`: clears `topics_to_brokers` and
`topic_partitions` (and only those two — `self.brokers` is untouched). -/
def reset_all_metadata (c : Cache) : Cache :=
  { c with topics_to_brokers := [], topic_partitions := [] }

/-- `KafkaClient.has_metadata_for_topic`. -/
def has_metadata_for_topic (c : Cache) (topic : String) : Bool :=
  (alFind c.topic_partitions topic).isSome

instance exceptDecEq {ε α : Type} [DecidableEq ε] [DecidableEq α] :
    DecidableEq (Except ε α) := fun a b =>
  match a, b with
  | .error e, .error f =>
    if h : e = f then .isTrue (by rw [h])
    else .isFalse (fun he => h (Except.error.inj he))
  | .ok x, .ok y =>
    if h : x = y then .isTrue (by rw [h])
    else .isFalse (fun he => h (Except.ok.inj he))
  | .error _, .ok _ => .isFalse (fun he => Except.noConfusion he)
  | .ok _, .error _ => .isFalse (fun he => Except.noConfusion he)

/-- Result of `_get_leader_for_partition`: the returned value (or the
raised `PartitionUnavailableError`), together with the number of metadata
reloads the call initiated (`load_metadata_for_topics` is fire-and-forget,
see the module comment, so initiating one does not change the cache the
call itself re-checks). -/
structure LeaderLookup where
  result : Except KafkaError (Option BrokerMetadata)
  reloads : Nat
deriving DecidableEq, Repr

/-- `KafkaClient._get_leader_for_partition`.
`self.topics_to_brokers.get(key) is None` holds both when the key is
absent and when it is stored with the `None` no-leader marker; in either
case one reload of metadata for the topic is initiated.  The re-check
`key not in self.topics_to_brokers` then runs against the unchanged cache
(the reload is a Deferred that has not fired). -/
def get_leader_for_partition (c : Cache) (topic : String) (partition : Int) :
    LeaderLookup :=
  let key : TopicAndPartition := ⟨topic, partition⟩
  let reloads : Nat :=
    match alFind c.topics_to_brokers key with
    | some (some _) => 0
    | _ => 1
  match alFind c.topics_to_brokers key with
  | none => ⟨.error (.partitionUnavailable key), reloads⟩
  | some b => ⟨.ok b, reloads⟩

/-! ### Installing a metadata response

`handleMetadataResponse` (the callback attached in
`load_metadata_for_topics`).  The only failure of its body is the Python
`KeyError` from `brokers[meta.leader]` when a partition names a leader id
absent from the broker map; the embedding surfaces that as `.error ()`
(no claim below concerns the partially-mutated state Python would leave in
that case). -/

def installPartitions (brokers : List (Int × BrokerMetadata)) (topic : String) :
    List (Int × PartitionMetadata) → Cache → Except Unit Cache
  | [], c => .ok c
  | (p, meta) :: rest, c =>
    let tps := (alFind c.topic_partitions topic).getD []
    let c1 : Cache :=
      { c with topic_partitions := alInsert c.topic_partitions topic (tps ++ [p]) }
    if meta.leader = -1 then
      installPartitions brokers topic rest
        { c1 with topics_to_brokers := alInsert c1.topics_to_brokers ⟨topic, p⟩ none }
    else
      match alFind brokers meta.leader with
      | none => .error ()
      | some b =>
        installPartitions brokers topic rest
          { c1 with topics_to_brokers := alInsert c1.topics_to_brokers ⟨topic, p⟩ (some b) }

/-- Install one topic of the decoded metadata response: first
`reset_topic_metadata(topic)`, then — if the partition dict is non-empty —
rebuild `topic_partitions[topic]` and the per-partition
`topics_to_brokers` entries (leader `-1` stored as the `None` marker). -/
def applyRefreshTopic (brokers : List (Int × BrokerMetadata)) (c : Cache)
    (topic : String) (partitions : List (Int × PartitionMetadata)) :
    Except Unit Cache :=
  let c0 := reset_topic_metadata c topic
  match partitions with
  | [] => .ok c0
  | _ =>
    installPartitions brokers topic partitions
      { c0 with topic_partitions := alInsert c0.topic_partitions topic [] }

/-- `handleMetadataResponse`: `self.brokers = brokers`, then install every
topic of the decoded response in order. -/
def handleMetadataResponse (c : Cache) (brokers : List (Int × BrokerMetadata))
    (topics : List (String × List (Int × PartitionMetadata))) :
    Except Unit Cache :=
  topics.foldlM (fun c tp => applyRefreshTopic brokers c tp.1 tp.2)
    { c with brokers := brokers }

/-! ### Broker-agnostic requests

`_send_broker_unaware_request`: the oracle
`makeRequest : host × port → Option Response` stands for obtaining the
connection and performing `conn.makeRequest(requestId, request)`; `none`
means *some* exception was raised along the way (connection error,
timeout, decode error — the source catches bare `Exception`).  Besides the
result we return the list of hosts actually contacted. -/

def send_broker_unaware_request (makeRequest : String × Int → Option Response) :
    List (String × Int) → Except KafkaError Response × List (String × Int)
  | [] => (.error .kafkaUnavailable, [])
  | h :: rest =>
    match makeRequest h with
    | some resp => (.ok resp, [h])
    | none =>
      let r := send_broker_unaware_request makeRequest rest
      (r.1, h :: r.2)

/-! ### Broker-aware dispatch (`_send_broker_aware_request`) -/

/-- The per-payload leader resolution loop at the top of
`_send_broker_aware_request`: the first payload whose
`_get_leader_for_partition` raises aborts the call; a `None` leader raises
`LeaderUnavailableError`.  On success every payload is paired with its
resolved leader (in payload order). -/
def resolvePayloads (c : Cache) :
    List Payload → Except KafkaError (List (BrokerMetadata × Payload))
  | [] => .ok []
  | p :: rest =>
    match (get_leader_for_partition c p.topic p.partition).result with
    | .error e => .error e
    | .ok none => .error (.leaderUnavailable p.topic p.partition)
    | .ok (some b) =>
      match resolvePayloads c rest with
      | .error e => .error e
      | .ok pairs => .ok ((b, p) :: pairs)

/-- One step of building `payloads_by_broker`
(`collections.defaultdict(list)`): groups appear in order of first
occurrence of a leader, later payloads for the same leader are appended to
its list. -/
def addToGroup (b : BrokerMetadata) (p : Payload) :
    List (BrokerMetadata × List Payload) → List (BrokerMetadata × List Payload)
  | [] => [(b, [p])]
  | (b1, ps) :: rest =>
    if b1 = b then (b1, ps ++ [p]) :: rest else (b1, ps) :: addToGroup b p rest

/-- `payloads_by_broker` built from the resolved (leader, payload) pairs in
payload order. -/
def groupByBroker (l : List (BrokerMetadata × Payload)) :
    List (BrokerMetadata × List Payload) :=
  l.foldl (fun acc bp => addToGroup bp.1 bp.2 acc) []

/-- Mutable state of the dispatch loop: the `acc` response accumulator
(keyed by `(response.topic, response.partition)`), the `failed_payloads`
list, and the metadata cache of the client (mutated by
`self.reset_all_metadata()` on a failure). -/
structure DispatchState where
  acc : List (TopicAndPartition × Response)
  failed_payloads : List Payload
  cache : Cache
deriving DecidableEq, Repr

/-- The body of `for broker, payloads in payloads_by_broker.items()`:
* `conn.send` raising `ConnectionError` (`sendOk broker = false`) marks the
  group failed and calls `reset_all_metadata`;
* with `decoder_fn is None` a successful send just `continue`s;
* otherwise `conn.recv` either raises (`recvRes broker = none`, same
  failure handling) or yields a response body whose decoded records are
  written into `acc` one by one (`acc[(topic, partition)] = response`). -/
def processGroup (sendOk : BrokerMetadata → Bool)
    (recvRes : BrokerMetadata → Option (List Response)) (hasDecoder : Bool)
    (s : DispatchState) (g : BrokerMetadata × List Payload) : DispatchState :=
  if sendOk g.1 = false then
    { s with failed_payloads := s.failed_payloads ++ g.2
             cache := reset_all_metadata s.cache }
  else if hasDecoder = false then s
  else
    match recvRes g.1 with
    | none =>
      { s with failed_payloads := s.failed_payloads ++ g.2
               cache := reset_all_metadata s.cache }
    | some resps =>
      { s with acc := resps.foldl (fun m r => alInsert m (keyOfResponse r) r) s.acc }

/-- The final re-ordering `(acc[k] for k in original_keys)`: a key absent
from `acc` raises the Python `KeyError` (modelled strictly; the source
generator raises it lazily at consumption, a difference no claim below
touches since it is only reached when every key is present or the sequence
is unused). -/
def collectResponses (acc : List (TopicAndPartition × Response)) :
    List TopicAndPartition → Except KafkaError (List Response)
  | [] => .ok []
  | k :: rest =>
    match alFind acc k with
    | none => .error (.keyError k)
    | some r =>
      match collectResponses acc rest with
      | .error e => .error e
      | .ok rs => .ok (r :: rs)

/-- The part of `_send_broker_aware_request` after grouping, parameterised
by the broker-group iteration order `gs` (Python 2 dict order is
unspecified): process every group, then raise `FailedPayloadsError` if any
group failed, else return `()` for an empty accumulator or the responses
re-ordered by `original_keys`. -/
def dispatchGroups (sendOk : BrokerMetadata → Bool)
    (recvRes : BrokerMetadata → Option (List Response)) (hasDecoder : Bool)
    (original_keys : List TopicAndPartition)
    (gs : List (BrokerMetadata × List Payload)) (c : Cache) :
    Except KafkaError (List Response) × Cache :=
  let s := gs.foldl (processGroup sendOk recvRes hasDecoder) ⟨[], [], c⟩
  if s.failed_payloads ≠ [] then (.error (.failedPayloads s.failed_payloads), s.cache)
  else if s.acc = [] then (.ok [], s.cache)
  else (collectResponses s.acc original_keys, s.cache)

/-- `KafkaClient._send_broker_aware_request` — leader resolution
(collecting `original_keys`, which equals the keys of the payloads in order),
then `dispatchGroups` over the broker groups in iteration order `gs`. -/
def send_broker_aware_request (sendOk : BrokerMetadata → Bool)
    (recvRes : BrokerMetadata → Option (List Response)) (hasDecoder : Bool)
    (c : Cache) (payloads : List Payload)
    (gs : List (BrokerMetadata × List Payload)) :
    Except KafkaError (List Response) × Cache :=
  match resolvePayloads c payloads with
  | .error e => (.error e, c)
  | .ok _ =>
    dispatchGroups sendOk recvRes hasDecoder (payloads.map keyOfPayload) gs c

/-! ### Response error classification -/

/-- Wire error codes of the two leadership-staleness error classes
(Kafka protocol: UnknownTopicOrPartition = 3, NotLeaderForPartition = 6). -/
def UNKNOWN_TOPIC_OR_PARTITION_CODE : Int := 3

def NOT_LEADER_FOR_PARTITION_CODE : Int := 6

/-- Modelled from the spec: `kafkatwisted.common.check_error` is not under
`src/`.  Per the spec (§6, §4.4) every decoded response record carries an
integer error code; code 0 means no error, the codes for "unknown topic or
partition" and "not leader for partition" raise the correspondingly named
exceptions, and every other non-zero code raises some other protocol
error. -/
def check_error (resp : Response) : Option KafkaError :=
  if resp.error = 0 then none
  else if resp.error = UNKNOWN_TOPIC_OR_PARTITION_CODE then
    some .unknownTopicOrPartition
  else if resp.error = NOT_LEADER_FOR_PARTITION_CODE then
    some .notLeaderForPartition
  else some (.protocolError resp.error)

/-- `KafkaClient._raise_on_response_error`: `check_error(resp)`; catching
exactly `UnknownTopicOrPartitionError` and `NotLeaderForPartitionError`
invalidates the metadata of the topic and re-raises; any other raised error
propagates with the cache untouched. -/
def raise_on_response_error (c : Cache) (resp : Response) :
    Cache × Option KafkaError :=
  match check_error resp with
  | none => (c, none)
  | some .unknownTopicOrPartition =>
    (reset_topic_metadata c resp.topic, some .unknownTopicOrPartition)
  | some .notLeaderForPartition =>
    (reset_topic_metadata c resp.topic, some .notLeaderForPartition)
  | some e => (c, some e)

/-! ### `send_produce_request` -/

/-- The result-assembly loop shared by the `send_*_request` facade methods:
for each response, `fail_on_error` runs `_raise_on_response_error` (whose
raised error aborts the loop, keeping its cache mutation); the surviving
response (or `callback(response)`) is appended to `out`. -/
def processResponses (fail_on_error : Bool) (callback : Option (Response → Response)) :
    List Response → Cache → List Response → Except KafkaError (List Response) × Cache
  | [], c, out => (.ok out, c)
  | r :: rest, c, out =>
    if fail_on_error then
      match raise_on_response_error c r with
      | (c1, some e) => (.error e, c1)
      | (c1, none) =>
        processResponses fail_on_error callback rest c1
          (out ++ [(callback.getD id) r])
    else
      processResponses fail_on_error callback rest c (out ++ [(callback.getD id) r])

/-- `KafkaClient.send_produce_request`: with `acks == 0` the decoder is
`None` (fire-and-forget); otherwise the produce decoder is used.  The
encoder partial application only fixes codec parameters and is elided. -/
def send_produce_request (sendOk : BrokerMetadata → Bool)
    (recvRes : BrokerMetadata → Option (List Response)) (c : Cache)
    (payloads : List Payload) (gs : List (BrokerMetadata × List Payload))
    (acks : Int) (fail_on_error : Bool) (callback : Option (Response → Response)) :
    Except KafkaError (List Response) × Cache :=
  let hasDecoder : Bool := if acks = 0 then false else true
  match send_broker_aware_request sendOk recvRes hasDecoder c payloads gs with
  | (.error e, c1) => (.error e, c1)
  | (.ok resps, c1) => processResponses fail_on_error callback resps c1 []

/-! ### Cache well-formedness predicates (for the invariant claims) -/

/-- Invariant I1: every partition id listed in `topic_partitions` has a
(possibly no-leader) entry in `topics_to_brokers`. -/
def I1 (c : Cache) : Prop :=
  ∀ t ps, alFind c.topic_partitions t = some ps →
    ∀ p ∈ ps, (alFind c.topics_to_brokers ⟨t, p⟩).isSome = true

/-- The converse direction: every `topics_to_brokers` key is listed under
its topic in `topic_partitions` (holds for refresh-built caches; under it,
invalidating a topic removes *all* leader entries of that topic). -/
def leaderEntriesListed (c : Cache) : Prop :=
  ∀ k : TopicAndPartition, (alFind c.topics_to_brokers k).isSome = true →
    ∃ ps, alFind c.topic_partitions k.topic = some ps ∧ k.partition ∈ ps

/-- Whether the dispatch loop marks a broker group as failed: the send
raises, or — when a decoder is present — the receive raises. -/
def groupFails (sendOk : BrokerMetadata → Bool)
    (recvRes : BrokerMetadata → Option (List Response)) (hasDecoder : Bool)
    (g : BrokerMetadata × List Payload) : Bool :=
  !sendOk g.1 || (hasDecoder && (recvRes g.1).isNone)

/-! ## Theorems -/

/-! ### Association-list lemmas -/

theorem alFind_insert {α β : Type} [DecidableEq α] (m : List (α × β)) (a : α)
    (b : β) (x : α) :
    alFind (alInsert m a b) x = if a = x then some b else alFind m x := by
  induction m with
  | nil => simp [alInsert, alFind]
  | cons kv t ih =>
    obtain ⟨k, v⟩ := kv
    simp only [alInsert]
    by_cases hk : k = a
    · subst hk
      rw [if_pos rfl]
      simp only [alFind]
      by_cases hx : k = x
      · simp [hx]
      · simp [hx]
    · rw [if_neg hk]
      simp only [alFind, ih]
      by_cases hx : k = x
      · subst hx
        have ha : ¬a = k := fun h => hk h.symm
        simp [ha]
      · simp [hx]

theorem alFind_erase {α β : Type} [DecidableEq α] (m : List (α × β)) (a x : α) :
    alFind (alErase m a) x = if a = x then none else alFind m x := by
  induction m with
  | nil => simp [alErase, alFind]
  | cons kv t ih =>
    obtain ⟨k, v⟩ := kv
    simp only [alErase]
    by_cases hk : k = a
    · subst hk
      rw [if_pos rfl, ih]
      simp only [alFind]
      by_cases hx : k = x
      · simp [hx]
      · simp [hx]
    · rw [if_neg hk]
      simp only [alFind, ih]
      by_cases hx : k = x
      · subst hx
        have ha : ¬a = k := fun h => hk h.symm
        simp [ha]
      · simp [hx]

theorem alFind_eraseFold_ne {α β γ : Type} [DecidableEq α] (f : γ → α)
    (l : List γ) (m : List (α × β)) (x : α) (h : ∀ p ∈ l, f p ≠ x) :
    alFind (l.foldl (fun m p => alErase m (f p)) m) x = alFind m x := by
  induction l generalizing m with
  | nil => rfl
  | cons p t ih =>
    simp only [List.foldl_cons]
    rw [ih _ (fun q hq => h q (List.mem_cons_of_mem _ hq)),
      alFind_erase, if_neg (h p (List.mem_cons_self _ _))]

theorem alFind_eraseFold_none {α β γ : Type} [DecidableEq α] (f : γ → α)
    (l : List γ) (m : List (α × β)) (x : α) (h : alFind m x = none) :
    alFind (l.foldl (fun m p => alErase m (f p)) m) x = none := by
  induction l generalizing m with
  | nil => exact h
  | cons p t ih =>
    simp only [List.foldl_cons]
    refine ih _ ?_
    rw [alFind_erase]
    by_cases hx : f p = x <;> simp [hx, h]

theorem alFind_eraseFold_mem {α β γ : Type} [DecidableEq α] (f : γ → α)
    (l : List γ) (m : List (α × β)) (x : α) (p : γ) (hp : p ∈ l)
    (hx : f p = x) :
    alFind (l.foldl (fun m p => alErase m (f p)) m) x = none := by
  induction l generalizing m with
  | nil => cases hp
  | cons q t ih =>
    simp only [List.foldl_cons]
    rcases List.mem_cons.mp hp with h | h
    · subst h
      exact alFind_eraseFold_none f t _ x (by rw [alFind_erase, if_pos hx])
    · exact ih _ h

/-! ### `reset_topic_metadata` lemmas -/

theorem reset_topic_noop (c : Cache) (t : String)
    (h : alFind c.topic_partitions t = none) : reset_topic_metadata c t = c := by
  unfold reset_topic_metadata
  rw [h]

theorem reset_topic_brokers (c : Cache) (t : String) :
    (reset_topic_metadata c t).brokers = c.brokers := by
  unfold reset_topic_metadata
  cases alFind c.topic_partitions t <;> rfl

theorem reset_topic_tp_self (c : Cache) (t : String) :
    alFind (reset_topic_metadata c t).topic_partitions t = none := by
  unfold reset_topic_metadata
  cases h : alFind c.topic_partitions t with
  | none => exact h
  | some ps => simpa using (alFind_erase c.topic_partitions t t).trans (if_pos rfl)

theorem reset_topic_tp_ne (c : Cache) (t x : String) (h : t ≠ x) :
    alFind (reset_topic_metadata c t).topic_partitions x =
      alFind c.topic_partitions x := by
  unfold reset_topic_metadata
  cases hf : alFind c.topic_partitions t with
  | none => rfl
  | some ps => simpa using (alFind_erase c.topic_partitions t x).trans (if_neg h)

theorem reset_topic_t2b_ne (c : Cache) (t : String) (k : TopicAndPartition)
    (h : k.topic ≠ t) :
    alFind (reset_topic_metadata c t).topics_to_brokers k =
      alFind c.topics_to_brokers k := by
  unfold reset_topic_metadata
  cases hf : alFind c.topic_partitions t with
  | none => rfl
  | some ps =>
    exact alFind_eraseFold_ne _ ps _ k
      (fun p _ hk => h (by rw [← hk]))

theorem reset_topic_t2b_mem (c : Cache) (t : String) (ps : List Int)
    (hps : alFind c.topic_partitions t = some ps) (p : Int) (hp : p ∈ ps) :
    alFind (reset_topic_metadata c t).topics_to_brokers ⟨t, p⟩ = none := by
  unfold reset_topic_metadata
  rw [hps]
  exact alFind_eraseFold_mem _ ps _ _ p hp rfl

theorem reset_topic_t2b_none (c : Cache) (t : String) (k : TopicAndPartition)
    (h : alFind c.topics_to_brokers k = none) :
    alFind (reset_topic_metadata c t).topics_to_brokers k = none := by
  unfold reset_topic_metadata
  cases hf : alFind c.topic_partitions t with
  | none => exact h
  | some ps => exact alFind_eraseFold_none _ ps _ k h

/-- Under `leaderEntriesListed`, resetting a topic removes every
`topics_to_brokers` entry whose key names that topic. -/
theorem reset_topic_t2b_all (c : Cache) (t : String)
    (hwf : leaderEntriesListed c) (p : Int) :
    alFind (reset_topic_metadata c t).topics_to_brokers ⟨t, p⟩ = none := by
  cases h : alFind c.topics_to_brokers (⟨t, p⟩ : TopicAndPartition) with
  | none => exact reset_topic_t2b_none c t _ h
  | some b =>
    obtain ⟨ps, hps, hp⟩ := hwf ⟨t, p⟩ (by rw [h]; rfl)
    exact reset_topic_t2b_mem c t ps hps p hp

/-! ### Claim C8 -/

/-- C8: `reset_topic_metadata` on a topic with no loaded metadata is a
no-op on the whole cache state; `reset_topic_metadata` is idempotent; and
`reset_all_metadata` applied twice yields the same state as applying it
once. -/
theorem C8_invalidation_idempotent (c : Cache) (t : String) :
    (alFind c.topic_partitions t = none → reset_topic_metadata c t = c) ∧
    reset_topic_metadata (reset_topic_metadata c t) t = reset_topic_metadata c t ∧
    reset_all_metadata (reset_all_metadata c) = reset_all_metadata c := by
  refine ⟨fun h => reset_topic_noop c t h, ?_, rfl⟩
  exact reset_topic_noop _ t (reset_topic_tp_self c t)

/-- Witness for C8 at a concrete cache: the topic `"u"` has no loaded
metadata, so resetting it leaves the state unchanged. -/
theorem C8_invalidation_idempotent_witness :
    reset_topic_metadata ⟨[], [(⟨"t", 0⟩, none)], [("t", [0])]⟩ "u" =
      ⟨[], [(⟨"t", 0⟩, none)], [("t", [0])]⟩ :=
  (C8_invalidation_idempotent ⟨[], [(⟨"t", 0⟩, none)], [("t", [0])]⟩ "u").1
    (by decide)

/-! ### Claim C9 -/

/-- C9: installing a metadata refresh with broker map `{1 : (h1, 1234)}`
and topic map `{"t" : {0 : leader 1}}` and then looking up the leader for
`("t", 0)` returns the broker descriptor `(h1, 1234)` and initiates no
further metadata reload (and hence no network call). -/
theorem C9_refresh_lookup_roundtrip :
    handleMetadataResponse ⟨[], [], []⟩ [(1, ⟨1, "h1", 1234⟩)]
        [("t", [(0, ⟨1⟩)])] =
      .ok ⟨[(1, ⟨1, "h1", 1234⟩)], [(⟨"t", 0⟩, some ⟨1, "h1", 1234⟩)],
        [("t", [0])]⟩ ∧
    get_leader_for_partition
        ⟨[(1, ⟨1, "h1", 1234⟩)], [(⟨"t", 0⟩, some ⟨1, "h1", 1234⟩)],
          [("t", [0])]⟩ "t" 0 =
      ⟨.ok (some ⟨1, "h1", 1234⟩), 0⟩ := by
  constructor
  · decide
  · decide

/-! ### Claim C3 (corrected) -/

/-- Counterexample to C3 as stated: a metadata refresh reporting leader
`-1` for partition `("t", 0)` stores the no-leader marker; the subsequent
lookup initiates exactly one reload, but — the partition being still
unresolved (the key still mapped to the marker at the re-check) — it does
NOT raise `PartitionUnavailableError`: it returns the no-leader marker
(the source docstring: returns `None` if the partition exists but has no
leader). -/
theorem C3_counterexample :
    handleMetadataResponse ⟨[], [], []⟩ [] [("t", [(0, ⟨-1⟩)])] =
      .ok ⟨[], [(⟨"t", 0⟩, none)], [("t", [0])]⟩ ∧
    get_leader_for_partition ⟨[], [(⟨"t", 0⟩, none)], [("t", [0])]⟩ "t" 0 =
      ⟨.ok none, 1⟩ ∧
    (get_leader_for_partition ⟨[], [(⟨"t", 0⟩, none)], [("t", [0])]⟩ "t" 0).result ≠
      .error (.partitionUnavailable ⟨"t", 0⟩) := by
  refine ⟨by decide, by decide, by decide⟩

/-- C3 (amended): a leader lookup initiates exactly one metadata reload
attempt when the entry is absent or holds the no-leader marker (and zero
otherwise — in particular it never loops); it raises
`PartitionUnavailableError` exactly when the `(topic, partition)` key is
absent from `topics_to_brokers` at the re-check; when the key is present
with the no-leader marker it returns the marker instead of raising (the
dispatcher then turns that into `LeaderUnavailableError`). -/
theorem C3_no_leader_lookup (c : Cache) (t : String) (p : Int) :
    (∀ b, alFind c.topics_to_brokers ⟨t, p⟩ = some (some b) →
      get_leader_for_partition c t p = ⟨.ok (some b), 0⟩) ∧
    (alFind c.topics_to_brokers ⟨t, p⟩ = some none →
      get_leader_for_partition c t p = ⟨.ok none, 1⟩) ∧
    (alFind c.topics_to_brokers ⟨t, p⟩ = none →
      get_leader_for_partition c t p =
        ⟨.error (.partitionUnavailable ⟨t, p⟩), 1⟩) := by
  refine ⟨fun b h => ?_, fun h => ?_, fun h => ?_⟩ <;>
    simp [get_leader_for_partition, h]

/-- Witness for C3 (amended) at a concrete cache holding the no-leader
marker for `("t", 0)`. -/
theorem C3_no_leader_lookup_witness :
    get_leader_for_partition ⟨[], [(⟨"t", 0⟩, none)], [("t", [0])]⟩ "t" 0 =
      ⟨.ok none, 1⟩ :=
  (C3_no_leader_lookup ⟨[], [(⟨"t", 0⟩, none)], [("t", [0])]⟩ "t" 0).2.1
    (by decide)

/-! ### Claim C6 (code bug)

`_get_leader_for_partition` calls `self.load_metadata_for_topics(topic)`,
which only fires the metadata request through a Deferred and attaches
`handleMetadataResponse` as a callback before returning; nothing awaits
the Deferred, so the `key not in self.topics_to_brokers` re-check runs
against the stale pre-reload cache.  The theorem shows the divergence at a
concrete input: on an empty cache the lookup raises
`PartitionUnavailableError` (after initiating one reload) even though the
very installation that reload would perform yields a live leader for the
key. -/

/-- C6: the code re-checks the cache before the reload it triggered has
completed.  With an empty cache, looking up `("t", 0)` raises
`PartitionUnavailableError`; yet installing the metadata the reload would
deliver (broker `1 = (h2, 9092)` leading `("t", 0)`) and re-running the
lookup returns that broker — the state the claim says the lookup should
have observed. -/
theorem C6_reload_not_awaited :
    get_leader_for_partition ⟨[], [], []⟩ "t" 0 =
      ⟨.error (.partitionUnavailable ⟨"t", 0⟩), 1⟩ ∧
    handleMetadataResponse ⟨[], [], []⟩ [(1, ⟨1, "h2", 9092⟩)]
        [("t", [(0, ⟨1⟩)])] =
      .ok ⟨[(1, ⟨1, "h2", 9092⟩)], [(⟨"t", 0⟩, some ⟨1, "h2", 9092⟩)],
        [("t", [0])]⟩ ∧
    get_leader_for_partition
        ⟨[(1, ⟨1, "h2", 9092⟩)], [(⟨"t", 0⟩, some ⟨1, "h2", 9092⟩)],
          [("t", [0])]⟩ "t" 0 =
      ⟨.ok (some ⟨1, "h2", 9092⟩), 0⟩ := by
  refine ⟨by decide, by decide, by decide⟩

/-! ### Claim C4 -/

/-- C4: with `fail_on_error` set, exactly the error codes for "unknown
topic or partition" and "not leader for partition" invalidate the cached
metadata of the topic of the response (the partition-id list disappears
and every listed partition loses its leader entry — under
`leaderEntriesListed`, every leader entry of the topic whatsoever) before
the error is re-raised; every other non-zero code is raised with the cache
completely unchanged, and code 0 raises nothing and changes nothing. -/
theorem C4_error_classification (c : Cache) (resp : Response) :
    (resp.error = UNKNOWN_TOPIC_OR_PARTITION_CODE →
      raise_on_response_error c resp =
        (reset_topic_metadata c resp.topic, some .unknownTopicOrPartition)) ∧
    (resp.error = NOT_LEADER_FOR_PARTITION_CODE →
      raise_on_response_error c resp =
        (reset_topic_metadata c resp.topic, some .notLeaderForPartition)) ∧
    (resp.error ≠ 0 → resp.error ≠ UNKNOWN_TOPIC_OR_PARTITION_CODE →
      resp.error ≠ NOT_LEADER_FOR_PARTITION_CODE →
      raise_on_response_error c resp = (c, some (.protocolError resp.error))) ∧
    (resp.error = 0 → raise_on_response_error c resp = (c, none)) ∧
    (∀ ps, alFind c.topic_partitions resp.topic = some ps →
      alFind (reset_topic_metadata c resp.topic).topic_partitions resp.topic =
          none ∧
      ∀ p ∈ ps,
        alFind (reset_topic_metadata c resp.topic).topics_to_brokers
          ⟨resp.topic, p⟩ = none) ∧
    (leaderEntriesListed c → ∀ p,
      alFind (reset_topic_metadata c resp.topic).topics_to_brokers
        ⟨resp.topic, p⟩ = none) := by
  refine ⟨fun h => ?_, fun h => ?_, fun h0 h3 h6 => ?_, fun h => ?_,
    fun ps hps => ⟨reset_topic_tp_self c resp.topic,
      fun p hp => reset_topic_t2b_mem c resp.topic ps hps p hp⟩,
    fun hwf p => reset_topic_t2b_all c resp.topic hwf p⟩
  · simp [raise_on_response_error, check_error, h,
      UNKNOWN_TOPIC_OR_PARTITION_CODE]
  · simp [raise_on_response_error, check_error, h,
      NOT_LEADER_FOR_PARTITION_CODE, UNKNOWN_TOPIC_OR_PARTITION_CODE]
  · simp only [UNKNOWN_TOPIC_OR_PARTITION_CODE] at h3
    simp only [NOT_LEADER_FOR_PARTITION_CODE] at h6
    simp [raise_on_response_error, check_error, h0, h3, h6,
      NOT_LEADER_FOR_PARTITION_CODE, UNKNOWN_TOPIC_OR_PARTITION_CODE]
  · simp [raise_on_response_error, check_error, h]

/-- Witness for C4: a "not leader for partition" response (code 6) for
topic `"t"` empties the two metadata maps of that topic and re-raises. -/
theorem C4_error_classification_witness :
    raise_on_response_error
        ⟨[], [(⟨"t", 0⟩, some ⟨1, "h1", 1⟩), (⟨"t", 1⟩, none)], [("t", [0, 1])]⟩
        ⟨"t", 0, 6, 0⟩ =
      (⟨[], [], []⟩, some .notLeaderForPartition) := by
  have h := (C4_error_classification
    ⟨[], [(⟨"t", 0⟩, some ⟨1, "h1", 1⟩), (⟨"t", 1⟩, none)], [("t", [0, 1])]⟩
    ⟨"t", 0, 6, 0⟩).2.1 (by decide)
  rw [h]
  decide

/-! ### Claim C7: invariant I1 -/

theorem alFind_insert_isSome {α β : Type} [DecidableEq α] (m : List (α × β))
    (a : α) (b : β) (x : α) (h : (alFind m x).isSome = true) :
    (alFind (alInsert m a b) x).isSome = true := by
  rw [alFind_insert]
  by_cases hax : a = x <;> simp [hax, h]

theorem I1_reset_topic (c : Cache) (t : String) (h : I1 c) :
    I1 (reset_topic_metadata c t) := by
  intro t1 ps1 hps1 p hp
  by_cases ht : t1 = t
  · subst ht
    rw [reset_topic_tp_self c t1] at hps1
    cases hps1
  · rw [reset_topic_tp_ne c t t1 (fun he => ht he.symm)] at hps1
    rw [reset_topic_t2b_ne c t ⟨t1, p⟩ ht]
    exact h t1 ps1 hps1 p hp

theorem I1_installPartitions (brokers : List (Int × BrokerMetadata))
    (topic : String) :
    ∀ (parts : List (Int × PartitionMetadata)) (c c' : Cache),
      installPartitions brokers topic parts c = .ok c' → I1 c → I1 c' := by
  intro parts
  induction parts with
  | nil =>
    intro c c' h hI
    cases h
    exact hI
  | cons pm rest ih =>
    intro c c' h hI
    obtain ⟨p, meta⟩ := pm
    have hstep : ∀ v : Option BrokerMetadata,
        I1 ⟨c.brokers,
          alInsert
            (Cache.mk c.brokers c.topics_to_brokers
              (alInsert c.topic_partitions topic
                ((alFind c.topic_partitions topic).getD [] ++ [p]))).topics_to_brokers
            ⟨topic, p⟩ v,
          alInsert c.topic_partitions topic
            ((alFind c.topic_partitions topic).getD [] ++ [p])⟩ := by
      intro v t1 ps1 hps1 q hq
      simp only [alFind_insert] at hps1 ⊢
      by_cases ht : topic = t1
      · subst ht
        rw [if_pos rfl] at hps1
        cases hps1
        rcases List.mem_append.mp hq with hq | hq
        · cases hfp : alFind c.topic_partitions topic with
          | none => rw [hfp] at hq; cases hq
          | some tps =>
            rw [hfp] at hq
            have := hI topic tps hfp q hq
            by_cases hk : (⟨topic, p⟩ : TopicAndPartition) = ⟨topic, q⟩ <;>
              simp [hk, this]
        · have hq : q = p := List.mem_singleton.mp hq
          subst hq
          simp
      · rw [if_neg ht] at hps1
        have hk : (⟨topic, p⟩ : TopicAndPartition) ≠ ⟨t1, q⟩ := by
          intro he
          exact ht (congrArg TopicAndPartition.topic he)
        rw [if_neg hk]
        exact hI t1 ps1 hps1 q hq
    simp only [installPartitions] at h
    by_cases hl : meta.leader = -1
    · rw [if_pos hl] at h
      exact ih _ c' h (hstep none)
    · rw [if_neg hl] at h
      cases hb : alFind brokers meta.leader with
      | none => rw [hb] at h; cases h
      | some b =>
        rw [hb] at h
        exact ih _ c' h (hstep (some b))

theorem I1_applyRefreshTopic (brokers : List (Int × BrokerMetadata))
    (c : Cache) (topic : String) (parts : List (Int × PartitionMetadata))
    (c' : Cache) (h : applyRefreshTopic brokers c topic parts = .ok c')
    (hI : I1 c) : I1 c' := by
  have hI0 : I1 (reset_topic_metadata c topic) := I1_reset_topic c topic hI
  unfold applyRefreshTopic at h
  cases parts with
  | nil =>
    cases h
    exact hI0
  | cons pm rest =>
    refine I1_installPartitions brokers topic _ _ c' h ?_
    intro t1 ps1 hps1 q hq
    simp only [alFind_insert] at hps1
    by_cases ht : topic = t1
    · rw [if_pos ht] at hps1
      cases hps1
      cases hq
    · rw [if_neg ht] at hps1
      exact hI0 t1 ps1 hps1 q hq

theorem I1_handleMetadataResponse (c : Cache)
    (bs : List (Int × BrokerMetadata))
    (ts : List (String × List (Int × PartitionMetadata))) (c' : Cache)
    (h : handleMetadataResponse c bs ts = .ok c') (hI : I1 c) : I1 c' := by
  unfold handleMetadataResponse at h
  have hI1 : I1 { c with brokers := bs } := hI
  revert h hI1
  generalize { c with brokers := bs } = c0
  intro h hI1
  induction ts generalizing c0 with
  | nil =>
    cases h
    exact hI1
  | cons tp rest ih =>
    rw [List.foldlM_cons] at h
    cases happ : applyRefreshTopic bs c0 tp.1 tp.2 with
    | error e => rw [happ] at h; cases h
    | ok c1 =>
      rw [happ] at h
      exact ih c1 h (I1_applyRefreshTopic bs c0 tp.1 tp.2 c1 happ hI1)

/-- C7: invariant I1 — every partition id listed in `topic_partitions` has
a (possibly no-leader) entry in `topics_to_brokers` — is preserved by a
successful metadata refresh installation, by `reset_topic_metadata` and by
`reset_all_metadata`; and invalidating a topic removes both its
partition-id list and the leader entries of all its listed partitions
(under `leaderEntriesListed`, all leader entries of that topic
whatsoever), leaving no orphaned partition ids. -/
theorem C7_invariant_I1 (c c' : Cache) (bs : List (Int × BrokerMetadata))
    (ts : List (String × List (Int × PartitionMetadata))) (t : String) :
    (I1 c → handleMetadataResponse c bs ts = .ok c' → I1 c') ∧
    (I1 c → I1 (reset_topic_metadata c t)) ∧
    I1 (reset_all_metadata c) ∧
    alFind (reset_topic_metadata c t).topic_partitions t = none ∧
    (∀ ps, alFind c.topic_partitions t = some ps →
      ∀ p ∈ ps,
        alFind (reset_topic_metadata c t).topics_to_brokers ⟨t, p⟩ = none) ∧
    (leaderEntriesListed c → ∀ p,
      alFind (reset_topic_metadata c t).topics_to_brokers ⟨t, p⟩ = none) := by
  refine ⟨fun hI h => I1_handleMetadataResponse c bs ts c' h hI,
    fun hI => I1_reset_topic c t hI, ?_, reset_topic_tp_self c t,
    fun ps hps p hp => reset_topic_t2b_mem c t ps hps p hp,
    fun hwf p => reset_topic_t2b_all c t hwf p⟩
  intro t1 ps1 hps1
  simp [reset_all_metadata, alFind] at hps1

/-- Witness for C7: I1 holds for the cache produced by a concrete refresh
(one live leader, one no-leader partition) starting from the empty cache,
for which I1 holds vacuously. -/
theorem C7_invariant_I1_witness :
    I1 ⟨[(1, ⟨1, "h1", 1234⟩)],
      [(⟨"t", 0⟩, some ⟨1, "h1", 1234⟩), (⟨"t", 1⟩, none)], [("t", [0, 1])]⟩ :=
  (C7_invariant_I1 ⟨[], [], []⟩
    ⟨[(1, ⟨1, "h1", 1234⟩)],
      [(⟨"t", 0⟩, some ⟨1, "h1", 1234⟩), (⟨"t", 1⟩, none)], [("t", [0, 1])]⟩
    [(1, ⟨1, "h1", 1234⟩)] [("t", [(0, ⟨1⟩), (1, ⟨-1⟩)])] "t").1
    (by intro t ps h; simp [alFind] at h) (by decide)

/-! ### Claim C5: bootstrap failover -/

theorem unaware_all_fail (makeRequest : String × Int → Option Response) :
    ∀ hosts : List (String × Int), (∀ h ∈ hosts, makeRequest h = none) →
      send_broker_unaware_request makeRequest hosts =
        (.error .kafkaUnavailable, hosts) := by
  intro hosts
  induction hosts with
  | nil => intro _; rfl
  | cons h t ih =>
    intro hall
    have hh : makeRequest h = none := hall h (List.mem_cons_self _ _)
    simp only [send_broker_unaware_request, hh]
    rw [ih (fun x hx => hall x (List.mem_cons_of_mem _ hx))]

theorem unaware_first_success (makeRequest : String × Int → Option Response) :
    ∀ (hosts : List (String × Int)) (i : Nat) (hi : i < hosts.length)
      (r : Response), makeRequest (hosts.get ⟨i, hi⟩) = some r →
      (∀ j (hj : j < i), makeRequest (hosts.get ⟨j, Nat.lt_trans hj hi⟩) = none) →
      send_broker_unaware_request makeRequest hosts =
        (.ok r, hosts.take (i + 1)) := by
  intro hosts
  induction hosts with
  | nil => intro i hi; exact absurd hi (Nat.not_lt_zero i)
  | cons h t ih =>
    intro i hi r hr hprev
    cases i with
    | zero =>
      simp only [List.get] at hr
      simp [send_broker_unaware_request, hr]
    | succ i =>
      have hh : makeRequest h = none := hprev 0 (Nat.succ_pos i)
      simp only [send_broker_unaware_request, hh]
      rw [ih i (Nat.lt_of_succ_lt_succ hi) r hr
        (fun j hj => hprev (j + 1) (Nat.succ_lt_succ hj))]
      rfl

theorem unaware_error_iff (makeRequest : String × Int → Option Response) :
    ∀ hosts : List (String × Int),
      (send_broker_unaware_request makeRequest hosts).1 =
          .error .kafkaUnavailable ↔
        ∀ h ∈ hosts, makeRequest h = none := by
  intro hosts
  induction hosts with
  | nil => simp [send_broker_unaware_request]
  | cons h t ih =>
    cases hh : makeRequest h with
    | some r =>
      simp only [send_broker_unaware_request, hh]
      constructor
      · intro he
        cases he
      · intro hall
        rw [hall h (List.mem_cons_self _ _)] at hh
        cases hh
    | none =>
      simp only [send_broker_unaware_request, hh]
      rw [ih]
      constructor
      · intro hall x hx
        rcases List.mem_cons.mp hx with he | he
        · rw [he]
          exact hh
        · exact hall x he
      · intro hall x hx
        exact hall x (List.mem_cons_of_mem _ hx)

/-- C5: a broker-agnostic request tries the configured hosts strictly in
list order; any failure (the oracle covers connection and
request/response exceptions alike, as the source catches bare `Exception`)
is swallowed and the next host tried; it returns the response of the first
succeeding host, contacting exactly the hosts up to and including it; and
it raises `KafkaUnavailableError` if and only if every host failed. -/
theorem C5_bootstrap_failover (makeRequest : String × Int → Option Response)
    (hosts : List (String × Int)) :
    ((∀ h ∈ hosts, makeRequest h = none) →
      send_broker_unaware_request makeRequest hosts =
        (.error .kafkaUnavailable, hosts)) ∧
    (∀ (i : Nat) (hi : i < hosts.length) (r : Response),
      makeRequest (hosts.get ⟨i, hi⟩) = some r →
      (∀ j (hj : j < i), makeRequest (hosts.get ⟨j, Nat.lt_trans hj hi⟩) = none) →
      send_broker_unaware_request makeRequest hosts =
        (.ok r, hosts.take (i + 1))) ∧
    ((send_broker_unaware_request makeRequest hosts).1 =
        .error .kafkaUnavailable ↔
      ∀ h ∈ hosts, makeRequest h = none) :=
  ⟨unaware_all_fail makeRequest hosts,
    fun i hi r hr hprev => unaware_first_success makeRequest hosts i hi r hr hprev,
    unaware_error_iff makeRequest hosts⟩

/-- Witness for C5: three hosts, the first two fail, the third answers —
the call returns the response of host 3 having contacted all three hosts
in order. -/
theorem C5_bootstrap_failover_witness :
    send_broker_unaware_request
        (fun h => if h.1 = "h3" then some ⟨"t", 0, 0, 7⟩ else none)
        [("h1", 9092), ("h2", 9092), ("h3", 9092)] =
      (.ok ⟨"t", 0, 0, 7⟩, [("h1", 9092), ("h2", 9092), ("h3", 9092)]) :=
  (C5_bootstrap_failover
      (fun h => if h.1 = "h3" then some ⟨"t", 0, 0, 7⟩ else none)
      [("h1", 9092), ("h2", 9092), ("h3", 9092)]).2.1 2 (by decide)
    ⟨"t", 0, 0, 7⟩ (by decide)
    (fun j hj => by
      interval_cases j
      · show (if ("h1" : String) = "h3"
            then some (⟨"t", 0, 0, 7⟩ : Response) else none) = none
        decide
      · show (if ("h2" : String) = "h3"
            then some (⟨"t", 0, 0, 7⟩ : Response) else none) = none
        decide)

/-! ### Dispatch-loop lemmas -/

/-- Case analysis of `processGroup`: the failure branches. -/
theorem processGroup_fail (sendOk : BrokerMetadata → Bool)
    (recvRes : BrokerMetadata → Option (List Response)) (hasDecoder : Bool)
    (s : DispatchState) (g : BrokerMetadata × List Payload)
    (hf : groupFails sendOk recvRes hasDecoder g = true) :
    processGroup sendOk recvRes hasDecoder s g =
      { s with failed_payloads := s.failed_payloads ++ g.2
               cache := reset_all_metadata s.cache } := by
  unfold processGroup
  cases hs : sendOk g.1 with
  | false => rfl
  | true =>
    cases hd : hasDecoder with
    | false => rw [groupFails, hs, hd] at hf; simp at hf
    | true =>
      cases hr : recvRes g.1 with
      | none => rfl
      | some rs => rw [groupFails, hs, hd, hr] at hf; simp at hf

/-- Case analysis of `processGroup`: fire-and-forget success. -/
theorem processGroup_no_decoder (sendOk : BrokerMetadata → Bool)
    (recvRes : BrokerMetadata → Option (List Response))
    (s : DispatchState) (g : BrokerMetadata × List Payload)
    (hs : sendOk g.1 = true) :
    processGroup sendOk recvRes false s g = s := by
  simp [processGroup, hs]

/-- Case analysis of `processGroup`: decoded success writes only `acc`. -/
theorem processGroup_success (sendOk : BrokerMetadata → Bool)
    (recvRes : BrokerMetadata → Option (List Response))
    (s : DispatchState) (g : BrokerMetadata × List Payload)
    (rs : List Response) (hs : sendOk g.1 = true) (hr : recvRes g.1 = some rs) :
    processGroup sendOk recvRes true s g =
      { s with acc := rs.foldl (fun m r => alInsert m (keyOfResponse r) r) s.acc } := by
  simp [processGroup, hs, hr]

/-- The `failed_payloads` accumulated by the group loop are exactly the
payload lists of the failing groups, concatenated in processing order. -/
theorem runGroups_failed (sendOk : BrokerMetadata → Bool)
    (recvRes : BrokerMetadata → Option (List Response)) (hasDecoder : Bool) :
    ∀ (gs : List (BrokerMetadata × List Payload)) (s : DispatchState),
      (gs.foldl (processGroup sendOk recvRes hasDecoder) s).failed_payloads =
        s.failed_payloads ++
          (gs.filter (groupFails sendOk recvRes hasDecoder)).flatMap Prod.snd := by
  intro gs
  induction gs with
  | nil => intro s; simp
  | cons g rest ih =>
    intro s
    rw [List.foldl_cons, List.filter_cons]
    cases hf : groupFails sendOk recvRes hasDecoder g with
    | true =>
      rw [processGroup_fail sendOk recvRes hasDecoder s g hf, ih]
      simp [List.append_assoc]
    | false =>
      have hs : sendOk g.1 = true := by
        cases hs : sendOk g.1 with
        | false => rw [groupFails, hs] at hf; simp at hf
        | true => rfl
      cases hd : hasDecoder with
      | false =>
        subst hd
        rw [processGroup_no_decoder sendOk recvRes s g hs, ih]
        simp
      | true =>
        subst hd
        cases hr : recvRes g.1 with
        | none => rw [groupFails, hs, hr] at hf; simp at hf
        | some rs =>
          rw [processGroup_success sendOk recvRes s g rs hs hr, ih]
          simp

/-- The cache after the group loop: untouched if no group failed, fully
invalidated (by the `reset_all_metadata` in the failure branch) if at
least one group failed. -/
theorem runGroups_cache (sendOk : BrokerMetadata → Bool)
    (recvRes : BrokerMetadata → Option (List Response)) (hasDecoder : Bool) :
    ∀ (gs : List (BrokerMetadata × List Payload)) (s : DispatchState),
      (gs.foldl (processGroup sendOk recvRes hasDecoder) s).cache =
        if gs.any (groupFails sendOk recvRes hasDecoder)
        then reset_all_metadata s.cache else s.cache := by
  intro gs
  induction gs with
  | nil => intro s; rfl
  | cons g rest ih =>
    intro s
    rw [List.foldl_cons, List.any_cons]
    cases hf : groupFails sendOk recvRes hasDecoder g with
    | true =>
      rw [processGroup_fail sendOk recvRes hasDecoder s g hf, ih]
      show (if rest.any (groupFails sendOk recvRes hasDecoder) = true
          then reset_all_metadata s.cache else reset_all_metadata s.cache) =
        reset_all_metadata s.cache
      exact ite_self _
    | false =>
      have hs : sendOk g.1 = true := by
        cases hs : sendOk g.1 with
        | false => rw [groupFails, hs] at hf; simp at hf
        | true => rfl
      cases hd : hasDecoder with
      | false =>
        subst hd
        rw [processGroup_no_decoder sendOk recvRes s g hs, ih]
        rfl
      | true =>
        subst hd
        cases hr : recvRes g.1 with
        | none => rw [groupFails, hs, hr] at hf; simp at hf
        | some rs =>
          rw [processGroup_success sendOk recvRes s g rs hs hr, ih]
          rfl

/-- Every group produced by `groupByBroker` has a non-empty payload
list. -/
theorem addToGroup_snd_ne_nil (b : BrokerMetadata) (p : Payload) :
    ∀ acc : List (BrokerMetadata × List Payload),
      (∀ g ∈ acc, g.2 ≠ []) → ∀ g ∈ addToGroup b p acc, g.2 ≠ [] := by
  intro acc
  induction acc with
  | nil =>
    intro _ g hg
    rcases List.mem_singleton.mp hg with rfl
    simp
  | cons a rest ih =>
    intro hacc g hg
    simp only [addToGroup] at hg
    by_cases hk : a.1 = b
    · rw [if_pos hk] at hg
      rcases List.mem_cons.mp hg with rfl | hg
      · simp
      · exact hacc g (List.mem_cons_of_mem _ hg)
    · rw [if_neg hk] at hg
      rcases List.mem_cons.mp hg with rfl | hg
      · exact hacc _ (List.mem_cons_self _ _)
      · exact ih (fun x hx => hacc x (List.mem_cons_of_mem _ hx)) g hg

theorem groupByBroker_snd_ne_nil (l : List (BrokerMetadata × Payload)) :
    ∀ g ∈ groupByBroker l, g.2 ≠ [] := by
  suffices h : ∀ (l : List (BrokerMetadata × Payload))
      (acc : List (BrokerMetadata × List Payload)), (∀ g ∈ acc, g.2 ≠ []) →
      ∀ g ∈ l.foldl (fun a bp => addToGroup bp.1 bp.2 a) acc, g.2 ≠ [] by
    exact h l [] (by intro g hg; cases hg)
  intro l
  induction l with
  | nil => intro acc hacc; exact hacc
  | cons bp rest ih =>
    intro acc hacc
    rw [List.foldl_cons]
    exact ih _ (addToGroup_snd_ne_nil bp.1 bp.2 acc hacc)

/-! ### Claim C2: partial failure -/

/-- C2: whenever at least one broker group fails its send or receive with
a connection error, the dispatch still processes every group (the failed
payload list below is exactly the concatenation over ALL failing groups,
including those after the first failure), fully invalidates the metadata
cache (both maps empty), and raises `FailedPayloadsError` carrying exactly
the payloads of the failing groups — successful responses of other groups
are not returned. -/
theorem C2_partial_failure (sendOk : BrokerMetadata → Bool)
    (recvRes : BrokerMetadata → Option (List Response)) (hasDecoder : Bool)
    (c : Cache) (payloads : List Payload)
    (pairs : List (BrokerMetadata × Payload))
    (gs : List (BrokerMetadata × List Payload))
    (hres : resolvePayloads c payloads = .ok pairs)
    (hperm : gs.Perm (groupByBroker pairs))
    (hfail : ∃ g ∈ gs, groupFails sendOk recvRes hasDecoder g = true) :
    send_broker_aware_request sendOk recvRes hasDecoder c payloads gs =
      (.error (.failedPayloads
          ((gs.filter (groupFails sendOk recvRes hasDecoder)).flatMap Prod.snd)),
        reset_all_metadata c) ∧
    (reset_all_metadata c).topics_to_brokers = [] ∧
    (reset_all_metadata c).topic_partitions = [] := by
  refine ⟨?_, rfl, rfl⟩
  obtain ⟨g0, hg0, hf0⟩ := hfail
  have hne : (gs.filter (groupFails sendOk recvRes hasDecoder)).flatMap
      Prod.snd ≠ [] := by
    have hg0f : g0 ∈ gs.filter (groupFails sendOk recvRes hasDecoder) :=
      List.mem_filter.mpr ⟨hg0, hf0⟩
    have hsnd : g0.2 ≠ [] :=
      groupByBroker_snd_ne_nil pairs g0 (hperm.mem_iff.mp hg0)
    intro hnil
    rcases List.exists_mem_of_ne_nil g0.2 hsnd with ⟨x, hx⟩
    have : x ∈ (gs.filter (groupFails sendOk recvRes hasDecoder)).flatMap
        Prod.snd := List.mem_flatMap.mpr ⟨g0, hg0f, hx⟩
    rw [hnil] at this
    cases this
  have hany : gs.any (groupFails sendOk recvRes hasDecoder) = true :=
    List.any_eq_true.mpr ⟨g0, hg0, hf0⟩
  have heq : send_broker_aware_request sendOk recvRes hasDecoder c payloads gs =
      dispatchGroups sendOk recvRes hasDecoder (payloads.map keyOfPayload) gs c := by
    unfold send_broker_aware_request
    rw [hres]
  rw [heq]
  simp only [dispatchGroups]
  rw [runGroups_failed, runGroups_cache, hany]
  simp only [List.nil_append]
  rw [if_pos hne]
  rfl

/-- Witness for C2: two payloads led by two brokers; the send to broker 2
fails.  The call raises `FailedPayloadsError` with exactly the payload of
broker 2 and empties both metadata maps. -/
theorem C2_partial_failure_witness :
    send_broker_aware_request (fun b => b.nodeId = 1)
        (fun _ => some [⟨"ta", 0, 0, 100⟩]) true
        ⟨[], [(⟨"ta", 0⟩, some ⟨1, "h1", 1⟩), (⟨"tb", 0⟩, some ⟨2, "h2", 1⟩)],
          [("ta", [0]), ("tb", [0])]⟩
        [⟨"ta", 0, 10⟩, ⟨"tb", 0, 20⟩]
        [(⟨1, "h1", 1⟩, [⟨"ta", 0, 10⟩]), (⟨2, "h2", 1⟩, [⟨"tb", 0, 20⟩])] =
      (.error (.failedPayloads [⟨"tb", 0, 20⟩]),
        ⟨[], [], []⟩) := by
  have h := (C2_partial_failure (fun b => b.nodeId = 1)
    (fun _ => some [⟨"ta", 0, 0, 100⟩]) true
    ⟨[], [(⟨"ta", 0⟩, some ⟨1, "h1", 1⟩), (⟨"tb", 0⟩, some ⟨2, "h2", 1⟩)],
      [("ta", [0]), ("tb", [0])]⟩
    [⟨"ta", 0, 10⟩, ⟨"tb", 0, 20⟩]
    [(⟨1, "h1", 1⟩, ⟨"ta", 0, 10⟩), (⟨2, "h2", 1⟩, ⟨"tb", 0, 20⟩)]
    [(⟨1, "h1", 1⟩, [⟨"ta", 0, 10⟩]), (⟨2, "h2", 1⟩, [⟨"tb", 0, 20⟩])]
    (by decide) (List.Perm.of_eq (by decide))
    ⟨(⟨2, "h2", 1⟩, [⟨"tb", 0, 20⟩]), by decide, by decide⟩).1
  rw [h]
  decide

/-! ### Claim C10: fire-and-forget produce -/

/-- With every send succeeding and no decoder, the group loop leaves the
dispatch state untouched. -/
theorem runGroups_no_decoder (sendOk : BrokerMetadata → Bool)
    (recvRes : BrokerMetadata → Option (List Response)) :
    ∀ (gs : List (BrokerMetadata × List Payload)) (s : DispatchState),
      (∀ g ∈ gs, sendOk g.1 = true) →
      gs.foldl (processGroup sendOk recvRes false) s = s := by
  intro gs
  induction gs with
  | nil => intro s _; rfl
  | cons g rest ih =>
    intro s hsend
    rw [List.foldl_cons,
      processGroup_no_decoder sendOk recvRes s g
        (hsend g (List.mem_cons_self _ _))]
    exact ih s (fun x hx => hsend x (List.mem_cons_of_mem _ hx))

/-- C10: `send_produce_request` with `acks = 0` (decoder `None`) returns
the empty list — and leaves the cache untouched — whenever leader
resolution succeeds and no broker-group send fails, regardless of how many
payloads were supplied. -/
theorem C10_acks_zero_empty_result (sendOk : BrokerMetadata → Bool)
    (recvRes : BrokerMetadata → Option (List Response)) (c : Cache)
    (payloads : List Payload) (pairs : List (BrokerMetadata × Payload))
    (gs : List (BrokerMetadata × List Payload)) (fail_on_error : Bool)
    (callback : Option (Response → Response))
    (hres : resolvePayloads c payloads = .ok pairs)
    (hperm : gs.Perm (groupByBroker pairs))
    (hsend : ∀ g ∈ gs, sendOk g.1 = true) :
    send_produce_request sendOk recvRes c payloads gs 0 fail_on_error callback =
      (.ok [], c) := by
  have hsr : send_broker_aware_request sendOk recvRes false c payloads gs =
      (.ok [], c) := by
    unfold send_broker_aware_request
    rw [hres]
    show dispatchGroups sendOk recvRes false (payloads.map keyOfPayload) gs c =
      (.ok [], c)
    simp only [dispatchGroups]
    rw [runGroups_no_decoder sendOk recvRes gs ⟨[], [], c⟩ hsend]
    rfl
  simp only [send_produce_request]
  rw [show (if True then false else true) = false from rfl, hsr]
  rfl

/-- Witness for C10: two payloads for two brokers, every send succeeding,
`acks = 0` — the produce call returns the empty list. -/
theorem C10_acks_zero_empty_result_witness :
    send_produce_request (fun _ => true) (fun _ => some [⟨"ta", 0, 0, 100⟩])
        ⟨[], [(⟨"ta", 0⟩, some ⟨1, "h1", 1⟩), (⟨"tb", 0⟩, some ⟨2, "h2", 1⟩)],
          [("ta", [0]), ("tb", [0])]⟩
        [⟨"ta", 0, 10⟩, ⟨"tb", 0, 20⟩]
        [(⟨1, "h1", 1⟩, [⟨"ta", 0, 10⟩]), (⟨2, "h2", 1⟩, [⟨"tb", 0, 20⟩])]
        0 true none =
      (.ok [],
        ⟨[], [(⟨"ta", 0⟩, some ⟨1, "h1", 1⟩), (⟨"tb", 0⟩, some ⟨2, "h2", 1⟩)],
          [("ta", [0]), ("tb", [0])]⟩) :=
  C10_acks_zero_empty_result (fun _ => true) (fun _ => some [⟨"ta", 0, 0, 100⟩])
    ⟨[], [(⟨"ta", 0⟩, some ⟨1, "h1", 1⟩), (⟨"tb", 0⟩, some ⟨2, "h2", 1⟩)],
      [("ta", [0]), ("tb", [0])]⟩
    [⟨"ta", 0, 10⟩, ⟨"tb", 0, 20⟩]
    [(⟨1, "h1", 1⟩, ⟨"ta", 0, 10⟩), (⟨2, "h2", 1⟩, ⟨"tb", 0, 20⟩)]
    [(⟨1, "h1", 1⟩, [⟨"ta", 0, 10⟩]), (⟨2, "h2", 1⟩, [⟨"tb", 0, 20⟩])]
    true none (by decide) (List.Perm.of_eq (by decide)) (by decide)

/-! ### Claim C1: response ordering

The accumulator after the group loop maps each key to the unique response
delivered for it, no matter in which order the broker groups were
processed. -/

theorem accFold_find_no_key (rs : List Response)
    (m : List (TopicAndPartition × Response)) (k : TopicAndPartition)
    (h : ∀ r ∈ rs, keyOfResponse r ≠ k) :
    alFind (rs.foldl (fun m r => alInsert m (keyOfResponse r) r) m) k =
      alFind m k := by
  induction rs generalizing m with
  | nil => rfl
  | cons r rest ih =>
    rw [List.foldl_cons, ih _ (fun x hx => h x (List.mem_cons_of_mem _ hx)),
      alFind_insert, if_neg (h r (List.mem_cons_self _ _))]

theorem accFold_find_key (k : TopicAndPartition) (r : Response) :
    ∀ rs : List Response, (∀ x ∈ rs, keyOfResponse x = k → x = r) →
      ∀ m, (∃ x ∈ rs, keyOfResponse x = k) →
      alFind (rs.foldl (fun m r => alInsert m (keyOfResponse r) r) m) k =
        some r := by
  intro rs
  induction rs with
  | nil =>
    intro _ m hex
    rcases hex with ⟨x, hx, _⟩
    cases hx
  | cons x rest ih =>
    intro huniq m hex
    rw [List.foldl_cons]
    by_cases hrest : ∃ y ∈ rest, keyOfResponse y = k
    · exact ih (fun y hy hk => huniq y (List.mem_cons_of_mem _ hy) hk) _ hrest
    · have hx : keyOfResponse x = k := by
        rcases hex with ⟨y, hy, hk⟩
        rcases List.mem_cons.mp hy with rfl | hy2
        · exact hk
        · exact absurd ⟨y, hy2, hk⟩ hrest
      rw [accFold_find_no_key rest _ k (fun y hy hk => hrest ⟨y, hy, hk⟩),
        alFind_insert, if_pos hx, huniq x (List.mem_cons_self _ _) hx]

theorem runGroups_acc_preserve (sendOk : BrokerMetadata → Bool)
    (recvRes : BrokerMetadata → Option (List Response)) :
    ∀ (gs : List (BrokerMetadata × List Payload)) (s : DispatchState)
      (k : TopicAndPartition) (r : Response),
      alFind s.acc k = some r →
      (∀ g ∈ gs, ∀ rs, recvRes g.1 = some rs →
        ∀ x ∈ rs, keyOfResponse x = k → x = r) →
      alFind ((gs.foldl (processGroup sendOk recvRes true) s)).acc k =
        some r := by
  intro gs
  induction gs with
  | nil => intro s k r hacc _; exact hacc
  | cons g rest ih =>
    intro s k r hacc huniq
    rw [List.foldl_cons]
    have hrest := fun g1 hg1 => huniq g1 (List.mem_cons_of_mem _ hg1)
    cases hs : sendOk g.1 with
    | false =>
      rw [processGroup_fail sendOk recvRes true s g (by rw [groupFails, hs]; rfl)]
      exact ih _ k r hacc hrest
    | true =>
      cases hr : recvRes g.1 with
      | none =>
        rw [processGroup_fail sendOk recvRes true s g
          (by rw [groupFails, hs, hr]; rfl)]
        exact ih _ k r hacc hrest
      | some rs =>
        rw [processGroup_success sendOk recvRes s g rs hs hr]
        refine ih _ k r ?_ hrest
        show alFind (rs.foldl (fun m r => alInsert m (keyOfResponse r) r) s.acc)
          k = some r
        by_cases hex : ∃ x ∈ rs, keyOfResponse x = k
        · exact accFold_find_key k r rs
            (fun x hx hk => huniq g (List.mem_cons_self _ _) rs hr x hx hk)
            s.acc hex
        · rw [accFold_find_no_key rs s.acc k (fun x hx hk => hex ⟨x, hx, hk⟩)]
          exact hacc

theorem runGroups_acc_key (sendOk : BrokerMetadata → Bool)
    (recvRes : BrokerMetadata → Option (List Response)) :
    ∀ (gs : List (BrokerMetadata × List Payload)) (s : DispatchState)
      (k : TopicAndPartition) (r : Response),
      (∃ g ∈ gs, sendOk g.1 = true ∧
        ∃ rs, recvRes g.1 = some rs ∧ ∃ x ∈ rs, keyOfResponse x = k) →
      (∀ g ∈ gs, ∀ rs, recvRes g.1 = some rs →
        ∀ x ∈ rs, keyOfResponse x = k → x = r) →
      alFind ((gs.foldl (processGroup sendOk recvRes true) s)).acc k =
        some r := by
  intro gs
  induction gs with
  | nil =>
    intro s k r hex _
    rcases hex with ⟨g, hg, _⟩
    cases hg
  | cons g rest ih =>
    intro s k r hex huniq
    rw [List.foldl_cons]
    have hrest := fun g1 hg1 => huniq g1 (List.mem_cons_of_mem _ hg1)
    rcases hex with ⟨g1, hg1, hs1, rs1, hr1, hx1⟩
    rcases List.mem_cons.mp hg1 with rfl | hg1mem
    · rw [processGroup_success sendOk recvRes s _ rs1 hs1 hr1]
      refine runGroups_acc_preserve sendOk recvRes rest _ k r ?_ hrest
      show alFind (rs1.foldl (fun m r => alInsert m (keyOfResponse r) r) s.acc)
        k = some r
      exact accFold_find_key k r rs1
        (fun x hx hk => huniq g1 (List.mem_cons_self _ _) rs1 hr1 x hx hk)
        s.acc hx1
    · exact ih _ k r ⟨g1, hg1mem, hs1, rs1, hr1, hx1⟩ hrest

/-! Membership lemmas for the `defaultdict` grouping. -/

theorem addToGroup_mem_pairs {P : BrokerMetadata × Payload → Prop}
    (b : BrokerMetadata) (p : Payload) :
    ∀ acc : List (BrokerMetadata × List Payload),
      (∀ g ∈ acc, ∀ q ∈ g.2, P (g.1, q)) → P (b, p) →
      ∀ g ∈ addToGroup b p acc, ∀ q ∈ g.2, P (g.1, q) := by
  intro acc
  induction acc with
  | nil =>
    intro _ hbp g hg q hq
    rcases List.mem_singleton.mp hg with rfl
    rcases List.mem_singleton.mp hq with rfl
    exact hbp
  | cons a rest ih =>
    intro hacc hbp g hg q hq
    simp only [addToGroup] at hg
    by_cases hk : a.1 = b
    · rw [if_pos hk] at hg
      rcases List.mem_cons.mp hg with rfl | hg2
      · rcases List.mem_append.mp hq with hq2 | hq2
        · exact hacc a (List.mem_cons_self _ _) q hq2
        · rcases List.mem_singleton.mp hq2 with rfl
          show P (a.1, q)
          rw [hk]
          exact hbp
      · exact hacc g (List.mem_cons_of_mem _ hg2) q hq
    · rw [if_neg hk] at hg
      rcases List.mem_cons.mp hg with rfl | hg2
      · exact hacc _ (List.mem_cons_self _ _) q hq
      · exact ih (fun x hx => hacc x (List.mem_cons_of_mem _ hx)) hbp g hg2 q hq

theorem foldl_addToGroup_mem_pairs {P : BrokerMetadata × Payload → Prop} :
    ∀ (l : List (BrokerMetadata × Payload))
      (acc : List (BrokerMetadata × List Payload)),
      (∀ g ∈ acc, ∀ q ∈ g.2, P (g.1, q)) → (∀ bp ∈ l, P bp) →
      ∀ g ∈ l.foldl (fun a bp => addToGroup bp.1 bp.2 a) acc,
        ∀ q ∈ g.2, P (g.1, q) := by
  intro l
  induction l with
  | nil => intro acc hacc _; exact hacc
  | cons bp rest ih =>
    intro acc hacc hl
    rw [List.foldl_cons]
    refine ih _ (addToGroup_mem_pairs bp.1 bp.2 acc hacc ?_)
      (fun x hx => hl x (List.mem_cons_of_mem _ hx))
    exact hl bp (List.mem_cons_self _ _)

/-- Every payload of every group was routed to that group: the pair
(group broker, payload) is one of the resolved pairs. -/
theorem groupByBroker_mem_pairs (l : List (BrokerMetadata × Payload)) :
    ∀ g ∈ groupByBroker l, ∀ q ∈ g.2, (g.1, q) ∈ l :=
  foldl_addToGroup_mem_pairs l [] (fun g hg => absurd hg (List.not_mem_nil g))
    (fun _ h => h)

theorem addToGroup_mem_new (b : BrokerMetadata) (p : Payload) :
    ∀ acc : List (BrokerMetadata × List Payload),
      ∃ g ∈ addToGroup b p acc, g.1 = b ∧ p ∈ g.2 := by
  intro acc
  induction acc with
  | nil =>
    exact ⟨(b, [p]), List.mem_singleton.mpr rfl, rfl, List.mem_singleton.mpr rfl⟩
  | cons a rest ih =>
    by_cases hk : a.1 = b
    · refine ⟨(a.1, a.2 ++ [p]), ?_, hk,
        List.mem_append.mpr (Or.inr (List.mem_singleton.mpr rfl))⟩
      simp only [addToGroup, if_pos hk]
      exact List.mem_cons_self _ _
    · rcases ih with ⟨g, hg, hgb, hgp⟩
      refine ⟨g, ?_, hgb, hgp⟩
      simp only [addToGroup, if_neg hk]
      exact List.mem_cons_of_mem _ hg

theorem addToGroup_mem_old (b : BrokerMetadata) (p : Payload)
    (b1 : BrokerMetadata) (q : Payload) :
    ∀ acc : List (BrokerMetadata × List Payload),
      (∃ g ∈ acc, g.1 = b1 ∧ q ∈ g.2) →
      ∃ g ∈ addToGroup b p acc, g.1 = b1 ∧ q ∈ g.2 := by
  intro acc
  induction acc with
  | nil =>
    rintro ⟨g, hg, _⟩
    cases hg
  | cons a rest ih =>
    rintro ⟨g, hg, hgb, hgq⟩
    by_cases hk : a.1 = b
    · simp only [addToGroup, if_pos hk]
      rcases List.mem_cons.mp hg with rfl | hg2
      · exact ⟨(g.1, g.2 ++ [p]), List.mem_cons_self _ _, hgb,
          List.mem_append.mpr (Or.inl hgq)⟩
      · exact ⟨g, List.mem_cons_of_mem _ hg2, hgb, hgq⟩
    · simp only [addToGroup, if_neg hk]
      rcases List.mem_cons.mp hg with rfl | hg2
      · exact ⟨g, List.mem_cons_self _ _, hgb, hgq⟩
      · rcases ih ⟨g, hg2, hgb, hgq⟩ with ⟨g2, hg2m, h2b, h2q⟩
        exact ⟨g2, List.mem_cons_of_mem _ hg2m, h2b, h2q⟩

theorem foldl_addToGroup_mem_old (b1 : BrokerMetadata) (q : Payload) :
    ∀ (l : List (BrokerMetadata × Payload))
      (acc : List (BrokerMetadata × List Payload)),
      (∃ g ∈ acc, g.1 = b1 ∧ q ∈ g.2) →
      ∃ g ∈ l.foldl (fun a bp => addToGroup bp.1 bp.2 a) acc,
        g.1 = b1 ∧ q ∈ g.2 := by
  intro l
  induction l with
  | nil => intro acc h; exact h
  | cons bp rest ih =>
    intro acc h
    rw [List.foldl_cons]
    exact ih _ (addToGroup_mem_old bp.1 bp.2 b1 q acc h)

/-- Every resolved pair lands in a group keyed by its broker. -/
theorem groupByBroker_mem_of (l : List (BrokerMetadata × Payload)) :
    ∀ bp ∈ l, ∃ g ∈ groupByBroker l, g.1 = bp.1 ∧ bp.2 ∈ g.2 := by
  suffices h : ∀ (l : List (BrokerMetadata × Payload))
      (acc : List (BrokerMetadata × List Payload)), ∀ bp ∈ l,
      ∃ g ∈ l.foldl (fun a x => addToGroup x.1 x.2 a) acc,
        g.1 = bp.1 ∧ bp.2 ∈ g.2 by
    intro bp hbp
    exact h l [] bp hbp
  intro l
  induction l with
  | nil => intro acc bp h; cases h
  | cons x rest ih =>
    intro acc bp hbp
    rw [List.foldl_cons]
    rcases List.mem_cons.mp hbp with rfl | hbp2
    · exact foldl_addToGroup_mem_old bp.1 bp.2 rest _ (addToGroup_mem_new bp.1 bp.2 acc)
    · exact ih _ bp hbp2

theorem addToGroup_fst (b : BrokerMetadata) (p : Payload) :
    ∀ acc : List (BrokerMetadata × List Payload),
      (addToGroup b p acc).map Prod.fst =
        if b ∈ acc.map Prod.fst then acc.map Prod.fst
        else acc.map Prod.fst ++ [b] := by
  intro acc
  induction acc with
  | nil => simp [addToGroup]
  | cons a rest ih =>
    by_cases hk : a.1 = b
    · simp only [addToGroup, if_pos hk, List.map_cons]
      rw [if_pos (List.mem_cons.mpr (Or.inl hk.symm))]
    · simp only [addToGroup, if_neg hk, List.map_cons, ih]
      by_cases hb : b ∈ rest.map Prod.fst
      · rw [if_pos hb, if_pos (List.mem_cons.mpr (Or.inr hb))]
      · have hnot : b ∉ a.1 :: rest.map Prod.fst := by
          intro hmem
          rcases List.mem_cons.mp hmem with he | hmem2
          · exact hk he.symm
          · exact hb hmem2
        rw [if_neg hb, if_neg hnot]
        rfl

theorem foldl_addToGroup_fst_nodup :
    ∀ (l : List (BrokerMetadata × Payload))
      (acc : List (BrokerMetadata × List Payload)),
      (acc.map Prod.fst).Nodup →
      ((l.foldl (fun a bp => addToGroup bp.1 bp.2 a) acc).map Prod.fst).Nodup := by
  intro l
  induction l with
  | nil => intro acc h; exact h
  | cons bp rest ih =>
    intro acc h
    rw [List.foldl_cons]
    refine ih _ ?_
    rw [addToGroup_fst]
    by_cases hb : bp.1 ∈ acc.map Prod.fst
    · rw [if_pos hb]
      exact h
    · rw [if_neg hb]
      refine h.append (List.nodup_singleton _) ?_
      intro a ha hmem
      rcases List.mem_singleton.mp hmem with rfl
      exact hb ha

/-- The broker keys of the grouping are pairwise distinct — one group per
broker. -/
theorem groupByBroker_fst_nodup (l : List (BrokerMetadata × Payload)) :
    ((groupByBroker l).map Prod.fst).Nodup :=
  foldl_addToGroup_fst_nodup l [] List.nodup_nil

/-- Soundness of the resolution loop: every emitted pair records the
cached live leader of its payload, and every payload is emitted. -/
theorem resolvePayloads_sound (c : Cache) :
    ∀ (payloads : List Payload) (pairs : List (BrokerMetadata × Payload)),
      resolvePayloads c payloads = .ok pairs →
      (∀ bp ∈ pairs,
        alFind c.topics_to_brokers (keyOfPayload bp.2) = some (some bp.1)) ∧
      (∀ p ∈ payloads, ∃ b, (b, p) ∈ pairs) := by
  intro payloads
  induction payloads with
  | nil =>
    intro pairs h
    cases h
    exact ⟨fun bp hbp => absurd hbp (List.not_mem_nil bp),
      fun p hp => absurd hp (List.not_mem_nil p)⟩
  | cons p rest ih =>
    intro pairs h
    unfold resolvePayloads at h
    cases hl : alFind c.topics_to_brokers ⟨p.topic, p.partition⟩ with
    | none =>
      rw [show (get_leader_for_partition c p.topic p.partition).result =
          .error (.partitionUnavailable ⟨p.topic, p.partition⟩) from by
        simp [get_leader_for_partition, hl]] at h
      cases h
    | some ob =>
      cases ob with
      | none =>
        rw [show (get_leader_for_partition c p.topic p.partition).result =
            .ok none from by simp [get_leader_for_partition, hl]] at h
        cases h
      | some b =>
        rw [show (get_leader_for_partition c p.topic p.partition).result =
            .ok (some b) from by simp [get_leader_for_partition, hl]] at h
        cases hrest : resolvePayloads c rest with
        | error e =>
          rw [hrest] at h
          cases h
        | ok prs =>
          rw [hrest] at h
          cases h
          obtain ⟨h1, h2⟩ := ih prs hrest
          constructor
          · intro bp hbp
            rcases List.mem_cons.mp hbp with rfl | hbp2
            · exact hl
            · exact h1 bp hbp2
          · intro q hq
            rcases List.mem_cons.mp hq with rfl | hq2
            · exact ⟨b, List.mem_cons_self _ _⟩
            · rcases h2 q hq2 with ⟨b2, hb2⟩
              exact ⟨b2, List.mem_cons_of_mem _ hb2⟩

/-- `(acc[k] for k in original_keys)` succeeds and returns the stored
response for each key, in key order, when every key is present. -/
theorem collectResponses_ok (acc : List (TopicAndPartition × Response)) :
    ∀ keys : List TopicAndPartition,
      (∀ k ∈ keys, (alFind acc k).isSome = true) →
      ∃ outs, collectResponses acc keys = .ok outs ∧
        outs.length = keys.length ∧
        ∀ i (hi : i < keys.length) (ho : i < outs.length),
          alFind acc (keys.get ⟨i, hi⟩) = some (outs.get ⟨i, ho⟩) := by
  intro keys
  induction keys with
  | nil =>
    intro _
    exact ⟨[], rfl, rfl, fun i hi => absurd hi (Nat.not_lt_zero i)⟩
  | cons k rest ih =>
    intro h
    have hk := h k (List.mem_cons_self _ _)
    cases hfind : alFind acc k with
    | none => rw [hfind] at hk; cases hk
    | some r =>
      rcases ih (fun x hx => h x (List.mem_cons_of_mem _ hx)) with
        ⟨outs, houts, hlen, hidx⟩
      refine ⟨r :: outs, ?_, by simp [hlen], ?_⟩
      · unfold collectResponses
        rw [hfind, houts]
      · intro i hi ho
        cases i with
        | zero => exact hfind
        | succ i => exact hidx i (Nat.lt_of_succ_lt_succ hi) (Nat.lt_of_succ_lt_succ ho)

/-- C1: when every payload resolves to a live leader, every broker-group
send and receive succeeds, and each group delivers exactly one response
per payload key of that group, the dispatch returns (with the cache
untouched) a sequence of the same length as the input whose i-th element
is THE delivered response whose (topic, partition) equals the i-th
payload key — for every processing order `gs` of the broker groups
(any permutation of the insertion-order grouping), so the result is
independent of grouping and group order. -/
theorem C1_response_ordering (sendOk : BrokerMetadata → Bool)
    (recvRes : BrokerMetadata → Option (List Response)) (c : Cache)
    (payloads : List Payload) (pairs : List (BrokerMetadata × Payload))
    (gs : List (BrokerMetadata × List Payload))
    (hres : resolvePayloads c payloads = .ok pairs)
    (hperm : gs.Perm (groupByBroker pairs))
    (hsend : ∀ g ∈ gs, sendOk g.1 = true)
    (hrecv : ∀ g ∈ gs, ∃ rs, recvRes g.1 = some rs ∧
      (∀ r ∈ rs, ∃ p ∈ g.2, keyOfPayload p = keyOfResponse r) ∧
      (∀ p ∈ g.2, ∃ r ∈ rs, keyOfResponse r = keyOfPayload p) ∧
      (∀ x ∈ rs, ∀ y ∈ rs, keyOfResponse x = keyOfResponse y → x = y)) :
    ∃ outs,
      send_broker_aware_request sendOk recvRes true c payloads gs =
        (.ok outs, c) ∧
      outs.length = payloads.length ∧
      ∀ i (hi : i < outs.length) (hp : i < payloads.length),
        keyOfResponse (outs.get ⟨i, hi⟩) =
          keyOfPayload (payloads.get ⟨i, hp⟩) ∧
        ∀ g ∈ gs, ∀ rs, recvRes g.1 = some rs → ∀ x ∈ rs,
          keyOfResponse x = keyOfPayload (payloads.get ⟨i, hp⟩) →
          outs.get ⟨i, hi⟩ = x := by
  have heq : send_broker_aware_request sendOk recvRes true c payloads gs =
      dispatchGroups sendOk recvRes true (payloads.map keyOfPayload) gs c := by
    unfold send_broker_aware_request
    rw [hres]
  have hnofail : ∀ g ∈ gs, groupFails sendOk recvRes true g = false := by
    intro g hg
    rcases hrecv g hg with ⟨rs, hr, _⟩
    rw [groupFails, hsend g hg, hr]
    rfl
  have hfilter : gs.filter (groupFails sendOk recvRes true) = [] :=
    List.filter_eq_nil_iff.mpr (fun g hg => by simp [hnofail g hg])
  have hany : gs.any (groupFails sendOk recvRes true) = false :=
    List.any_eq_false.mpr (fun g hg => by simp [hnofail g hg])
  have hfailed : (gs.foldl (processGroup sendOk recvRes true)
      ⟨[], [], c⟩).failed_payloads = [] := by
    rw [runGroups_failed, hfilter]
    rfl
  have hcache : (gs.foldl (processGroup sendOk recvRes true)
      ⟨[], [], c⟩).cache = c := by
    rw [runGroups_cache, hany]
    rfl
  obtain ⟨hpairs_leader, hpayload_in⟩ := resolvePayloads_sound c payloads pairs hres
  have hnodup : (gs.map Prod.fst).Nodup :=
    (hperm.map Prod.fst).nodup_iff.mpr (groupByBroker_fst_nodup pairs)
  have hgroup_of : ∀ p ∈ payloads, ∃ g ∈ gs, p ∈ g.2 ∧
      alFind c.topics_to_brokers (keyOfPayload p) = some (some g.1) := by
    intro p hp
    rcases hpayload_in p hp with ⟨b, hbp⟩
    rcases groupByBroker_mem_of pairs (b, p) hbp with ⟨g, hgmem, hgb, hgp⟩
    refine ⟨g, hperm.mem_iff.mpr hgmem, hgp, ?_⟩
    rw [hgb]
    exact hpairs_leader (b, p) hbp
  have hleader_of_group : ∀ g ∈ gs, ∀ q ∈ g.2,
      alFind c.topics_to_brokers (keyOfPayload q) = some (some g.1) := by
    intro g hg q hq
    exact hpairs_leader (g.1, q)
      (groupByBroker_mem_pairs pairs g (hperm.mem_iff.mp hg) q hq)
  have hexists_resp : ∀ p ∈ payloads, ∃ r,
      (∃ g ∈ gs, sendOk g.1 = true ∧ ∃ rs, recvRes g.1 = some rs ∧
        ∃ x ∈ rs, keyOfResponse x = keyOfPayload p) ∧
      keyOfResponse r = keyOfPayload p ∧
      (∀ g ∈ gs, ∀ rs, recvRes g.1 = some rs →
        ∀ x ∈ rs, keyOfResponse x = keyOfPayload p → x = r) := by
    intro p hp
    rcases hgroup_of p hp with ⟨g0, hg0, hpg0, hlead0⟩
    rcases hrecv g0 hg0 with ⟨rs0, hr0, hback0, hfwd0, huniq0⟩
    rcases hfwd0 p hpg0 with ⟨r0, hr0mem, hr0key⟩
    refine ⟨r0, ⟨g0, hg0, hsend g0 hg0, rs0, hr0, r0, hr0mem, hr0key⟩,
      hr0key, ?_⟩
    intro g hg rs hrs x hx hxkey
    rcases hrecv g hg with ⟨rs2, hrs2, hback2, hfwd2, huniq2⟩
    rw [hrs] at hrs2
    have hrseq : rs = rs2 := Option.some.inj hrs2
    subst hrseq
    rcases hback2 x hx with ⟨q, hqg, hqkey⟩
    have h1 : alFind c.topics_to_brokers (keyOfPayload p) =
        some (some g.1) := by
      rw [← hxkey, ← hqkey]
      exact hleader_of_group g hg q hqg
    have hbeq : g.1 = g0.1 :=
      Option.some.inj (Option.some.inj (h1.symm.trans hlead0))
    have hgeq : g = g0 := List.inj_on_of_nodup_map hnodup hg hg0 hbeq
    subst hgeq
    have hrs0eq : rs = rs0 := Option.some.inj (hrs.symm.trans hr0)
    subst hrs0eq
    exact huniq2 x hx r0 hr0mem (hxkey.trans hr0key.symm)
  have hfind : ∀ p ∈ payloads, ∃ r,
      alFind ((gs.foldl (processGroup sendOk recvRes true)
        ⟨[], [], c⟩)).acc (keyOfPayload p) = some r ∧
      keyOfResponse r = keyOfPayload p ∧
      (∀ g ∈ gs, ∀ rs, recvRes g.1 = some rs →
        ∀ x ∈ rs, keyOfResponse x = keyOfPayload p → x = r) := by
    intro p hp
    rcases hexists_resp p hp with ⟨r, hex, hrkey, huniq⟩
    exact ⟨r, runGroups_acc_key sendOk recvRes gs ⟨[], [], c⟩
      (keyOfPayload p) r hex huniq, hrkey, huniq⟩
  by_cases hple : payloads = []
  · subst hple
    have hpairs_nil : pairs = [] := by
      have h2 := hres
      simp only [resolvePayloads] at h2
      exact (Except.ok.inj h2).symm
    have hgs : gs = [] := by
      rw [hpairs_nil] at hperm
      exact List.Perm.eq_nil hperm
    subst hgs
    refine ⟨[], ?_, rfl, fun i hi _ => absurd hi (Nat.not_lt_zero i)⟩
    rw [heq]
    rfl
  · obtain ⟨p0, hp0⟩ := List.exists_mem_of_ne_nil payloads hple
    have haccne : (gs.foldl (processGroup sendOk recvRes true)
        ⟨[], [], c⟩).acc ≠ [] := by
      rcases hfind p0 hp0 with ⟨r, hfr, _⟩
      intro hnil
      rw [hnil] at hfr
      cases hfr
    have hkeysome : ∀ k ∈ payloads.map keyOfPayload,
        (alFind ((gs.foldl (processGroup sendOk recvRes true)
          ⟨[], [], c⟩)).acc k).isSome = true := by
      intro k hk
      rcases List.mem_map.mp hk with ⟨p, hp, rfl⟩
      rcases hfind p hp with ⟨r, hr, _⟩
      rw [hr]
      rfl
    rcases collectResponses_ok _ (payloads.map keyOfPayload) hkeysome with
      ⟨outs, hcollect, hlen, hidx⟩
    refine ⟨outs, ?_, by rw [hlen, List.length_map], ?_⟩
    · rw [heq]
      simp only [dispatchGroups]
      rw [hfailed]
      rw [if_neg (fun h => h rfl)]
      rw [if_neg haccne, hcollect, hcache]
    · intro i hi hp2
      have hkey : (payloads.map keyOfPayload).get
          ⟨i, by rw [List.length_map]; exact hp2⟩ =
          keyOfPayload (payloads.get ⟨i, hp2⟩) := by
        simp [List.get_eq_getElem, List.getElem_map]
      have hfindi := hidx i (by rw [List.length_map]; exact hp2) hi
      rw [hkey] at hfindi
      rcases hfind (payloads.get ⟨i, hp2⟩) (List.get_mem payloads i hp2) with
        ⟨r, hfr, hkeyr, huniqr⟩
      have hout_eq : outs.get ⟨i, hi⟩ = r :=
        (Option.some.inj (hfr.symm.trans hfindi)).symm
      constructor
      · rw [hout_eq, hkeyr]
      · intro g hg rs hrs x hx hxkey
        rw [hout_eq]
        exact (huniqr g hg rs hrs x hx hxkey).symm

/-- Witness for C1: two payloads for distinct topics led by two distinct
brokers, each broker answering with the matching response — the dispatch
returns both responses in payload order. -/
theorem C1_response_ordering_witness :
    ∃ outs,
      send_broker_aware_request (fun _ => true)
          (fun b => if b.nodeId = 1 then some [⟨"ta", 0, 0, 100⟩]
            else some [⟨"tb", 0, 0, 200⟩]) true
          ⟨[], [(⟨"ta", 0⟩, some ⟨1, "h1", 1⟩), (⟨"tb", 0⟩, some ⟨2, "h2", 1⟩)],
            [("ta", [0]), ("tb", [0])]⟩
          [⟨"ta", 0, 10⟩, ⟨"tb", 0, 20⟩]
          [(⟨1, "h1", 1⟩, [⟨"ta", 0, 10⟩]), (⟨2, "h2", 1⟩, [⟨"tb", 0, 20⟩])] =
        (.ok outs,
          ⟨[], [(⟨"ta", 0⟩, some ⟨1, "h1", 1⟩), (⟨"tb", 0⟩, some ⟨2, "h2", 1⟩)],
            [("ta", [0]), ("tb", [0])]⟩) ∧
      outs.length = 2 := by
  obtain ⟨outs, hsend, hlen, _⟩ := C1_response_ordering (fun _ => true)
    (fun b => if b.nodeId = 1 then some [⟨"ta", 0, 0, 100⟩]
      else some [⟨"tb", 0, 0, 200⟩])
    ⟨[], [(⟨"ta", 0⟩, some ⟨1, "h1", 1⟩), (⟨"tb", 0⟩, some ⟨2, "h2", 1⟩)],
      [("ta", [0]), ("tb", [0])]⟩
    [⟨"ta", 0, 10⟩, ⟨"tb", 0, 20⟩]
    [(⟨1, "h1", 1⟩, ⟨"ta", 0, 10⟩), (⟨2, "h2", 1⟩, ⟨"tb", 0, 20⟩)]
    [(⟨1, "h1", 1⟩, [⟨"ta", 0, 10⟩]), (⟨2, "h2", 1⟩, [⟨"tb", 0, 20⟩])]
    (by decide) (List.Perm.of_eq (by decide)) (by decide)
    (by
      intro g hg
      rcases List.mem_cons.mp hg with rfl | hg2
      · exact ⟨[⟨"ta", 0, 0, 100⟩], by decide, by decide, by decide, by decide⟩
      rcases List.mem_cons.mp hg2 with rfl | hg3
      · exact ⟨[⟨"tb", 0, 0, 200⟩], by decide, by decide, by decide, by decide⟩
      · cases hg3)
  exact ⟨outs, hsend, hlen⟩
